import Mathlib

/-!
Shallow embedding of the Excalink frame index + cache-coherency engine.

Source files embedded here:
  * `src/unnamed/part_002` — the final `FrameIndexer` class (the spec's
    "Frame Cache & Index", "Frame Extractor", "Content-Change Detector" and
    "Change Event Router" all live in this class);
  * `src/ExcalidrawDecompressor.ts` — the "Payload Decoder";
  * `src/main.ts` — `forceRescan`.

Modelling conventions:
  * JavaScript `Map<string, CacheEntry>` and plain objects used as string-keyed
    maps (`frameIndex`) are represented as association lists with unique keys,
    with `Map.set` / property assignment updating the first matching key in
    place and appending otherwise (JS objects and Maps preserve insertion
    order, which this mirrors).
  * `vault.read` is the only operation in the indexer that can throw; it is
    modelled as `Vault.content : String → Option String`, `none` standing for
    a read that throws.  Every `try`/`catch` in the source is translated by
    propagating that `Option`.
  * The lz-string library and `JSON.parse` are external to the repository
    (the spec treats the decompression library as a black box), so they are
    parameters of the development, gathered in `JsEnv`.  Parsed JSON is the
    inductive `JsonVal`.
  * JS machine integers appear only in `generateContentHash`, where `<< 5`
    and `& hash` coerce to 32-bit two's complement; this is modelled with
    explicit reduction `% 2^32` on `Int`.
-/

namespace Excalink

/-- JSON-like structured data, the result of `JSON.parse` or of the
decompression pipeline.  `null`, booleans, numbers, strings, arrays and
objects; object fields are an association list in document order. -/
inductive JsonVal where
  | null : JsonVal
  | bool (b : Bool) : JsonVal
  | num (n : Int) : JsonVal
  | str (s : String) : JsonVal
  | arr (items : List JsonVal) : JsonVal
  | obj (fields : List (String × JsonVal)) : JsonVal

/-- Association-list lookup, first match wins (JS `Map.get` /
property access). -/
def lookupA {α : Type} : List (String × α) → String → Option α
  | [], _ => none
  | (k', v) :: rest, k => if k' = k then some v else lookupA rest k

/-- Association-list update: overwrite the first binding of the key in place,
append if absent (JS `Map.set` / property assignment, which keep insertion
order). -/
def setA {α : Type} : List (String × α) → String → α → List (String × α)
  | [], k, v => [(k, v)]
  | (k', v') :: rest, k, v =>
    if k' = k then (k, v) :: rest else (k', v') :: setA rest k v

/-- Association-list removal of a key (JS `Map.delete` / `delete obj[k]`;
keys are unique, removing every binding of the key is the same operation). -/
def deleteA {α : Type} : List (String × α) → String → List (String × α)
  | [], _ => []
  | (k', v') :: rest, k =>
    if k' = k then deleteA rest k else (k', v') :: deleteA rest k

/-- `FrameInfo` from part_002 lines 4-7: a frame record carries a name and an
id, nothing else. -/
structure FrameInfo where
  name : String
  id : String
deriving DecidableEq, Repr

/-- `CacheEntry` from part_002 lines 16-20. -/
structure CacheEntry where
  contentHash : String
  frames : List FrameInfo
  lastModified : Int
deriving DecidableEq, Repr

/-- The slice of Obsidian's `TFile` the indexer consults: `path`, `basename`
and `stat.mtime`. -/
structure TFile where
  path : String
  basename : String
  mtime : Int
deriving DecidableEq, Repr

/-- The document store: the list `getMarkdownFiles()` returns, and the
content `vault.read` yields per path (`none` = the read throws). -/
structure Vault where
  files : List TFile
  content : String → Option String

/-- The mutable fields of the `FrameIndexer` class. -/
structure IndexerState where
  frameIndex : List (String × List FrameInfo)
  frameCache : List (String × CacheEntry)
  isInitialized : Bool
deriving DecidableEq, Repr

/-- The per-scan counters logged by `scanAllExcalidrawFiles`. -/
structure ScanReport where
  processedFiles : Nat
  cacheHits : Nat
  cacheMisses : Nat
  skippedFiles : Nat
deriving DecidableEq, Repr

/-- The platform facilities external to the repository: `JSON.parse`
(`none` = it throws) and the four lz-string decompression entry points
(`none` = the call returned null/undefined or threw; a returned empty string
is `some ""`, which the length guard rejects just as JS falsiness does). -/
structure JsEnv where
  jsonParse : String → Option JsonVal
  decompressFromBase64 : String → Option String
  decompressFromUTF16 : String → Option String
  decompressFromEncodedURIComponent : String → Option String
  decompressRaw : String → Option String

/-! ### String primitives

The JS string methods the source uses (`endsWith`, `trim`, `split`) are
re-implemented here by structural recursion over the character list, so that
every definition evaluates inside the kernel. -/

/-- JS `\s` for the characters that occur in practice (the regex also matches
rarer Unicode spaces, which never occur in base64 / compressed payloads). -/
def isJsSpace (c : Char) : Bool :=
  c = ' ' || c = '\t' || c = '\n' || c = '\r' || c = '\x0b' || c = '\x0c'

/-- `compressedData.replace(/\s/g, '')` — drop all whitespace. -/
def stripJsWhitespace (s : String) : String :=
  String.mk (s.data.filter (fun c => !(isJsSpace c)))

/-- JS `s.endsWith(suffix)`. -/
def jsEndsWith (s suffix : String) : Bool :=
  suffix.data.isSuffixOf s.data

/-- JS `s.trim()`: strip leading and trailing whitespace (JS also trims a few
rare Unicode spaces that never occur in these documents). -/
def jsTrim (s : String) : String :=
  String.mk (((s.data.dropWhile isJsSpace).reverse.dropWhile isJsSpace).reverse)

/-- JS `s.split('/')`. -/
def splitSlash : List Char → List (List Char)
  | [] => [[]]
  | c :: rest =>
    let parts := splitSlash rest
    if c = '/' then [] :: parts
    else
      match parts with
      | p :: ps => (c :: p) :: ps
      | [] => [[c]]

/-- One decompression strategy of `ExcalidrawDecompressor.decompress`: run the
decompressor; accept the result only if it is longer than 50 characters and
`JSON.parse` succeeds on it (a parse failure throws inside the strategy's
`try`, which falls through to the next strategy — same effect as rejection). -/
def strategyAccept (jp : String → Option JsonVal) (dec : String → Option String)
    (s : String) : Option JsonVal :=
  match dec s with
  | some d => if d.length > 50 then jp d else none
  | none => none

namespace ExcalidrawDecompressor

/-- `ExcalidrawDecompressor.decompress` (lines 12-75): strip whitespace, then
try base64, UTF-16, encoded-URI-component and raw decompression in that
order; the first strategy whose output passes the length-and-parse acceptance
test wins; if none does the function throws (`Except.error`). -/
def decompress (env : JsEnv) (compressedData : String) : Except Unit JsonVal :=
  let cleanData := stripJsWhitespace compressedData
  match strategyAccept env.jsonParse env.decompressFromBase64 cleanData with
  | some v => .ok v
  | none =>
  match strategyAccept env.jsonParse env.decompressFromUTF16 cleanData with
  | some v => .ok v
  | none =>
  match strategyAccept env.jsonParse env.decompressFromEncodedURIComponent cleanData with
  | some v => .ok v
  | none =>
  match strategyAccept env.jsonParse env.decompressRaw cleanData with
  | some v => .ok v
  | none => .error ()

end ExcalidrawDecompressor

/-- The decoder's strategy order as a list, used to state the priority-order
property: base64, UTF-16, URI-component, raw. -/
def strategyList (env : JsEnv) : List (String → Option String) :=
  [env.decompressFromBase64, env.decompressFromUTF16,
   env.decompressFromEncodedURIComponent, env.decompressRaw]

/-- First strategy in the list whose result is accepted (spec wording of the
decoder algorithm, to be proved equal to `decompress`). -/
def firstAccept (jp : String → Option JsonVal) :
    List (String → Option String) → String → Option JsonVal
  | [], _ => none
  | dec :: rest, s =>
    match strategyAccept jp dec s with
    | some v => some v
    | none => firstAccept jp rest s

/-! ### Fenced-block detection (`parseFramesFromContent`, lines 210-231)

`content.match(/```compressed-json\n([\s\S]*?)\n```/)` finds the earliest
occurrence of the literal opener that is followed by the literal closer and
captures the shortest body between them.  Because every later occurrence of
the opener lies after the first one, "first opener has some closer after it"
is equivalent to "some opener has a closer", so the match succeeds exactly
when the first opener is followed by a closer, with the lazy capture ending
at the first closer. -/

/-- Split a character list at the first occurrence of `pat`: returns the text
before the occurrence and the text after it. -/
def splitFirst (pat : List Char) : List Char → Option (List Char × List Char)
  | [] => if pat = [] then some ([], []) else none
  | c :: rest =>
    if pat.isPrefixOf (c :: rest) then some ([], (c :: rest).drop pat.length)
    else
      match splitFirst pat rest with
      | some (pre, post) => some (c :: pre, post)
      | none => none

/-- Lazy regex capture `openPat([\s\S]*?)closePat`: body between the first
opener and the first closer after it. -/
def lazyCapture (openPat closePat s : List Char) : Option (List Char) :=
  match splitFirst openPat s with
  | none => none
  | some (_, rest) =>
    match splitFirst closePat rest with
    | none => none
    | some (body, _) => some body

/-- The block-detection cascade of `parseFramesFromContent` lines 210-231:
compressed-json fence first, then json fence, then a generic fence.  The
returned flag is `isCompressed`.  (The `startsWith('{')` test on the generic
block only selects a log message in the source — a generic match is fed to
the JSON branch either way, so it is not modelled.) -/
def findJsonBlock (content : String) : Option (Bool × String) :=
  let cs := content.data
  match lazyCapture "```compressed-json\n".data "\n```".data cs with
  | some body => some (true, String.mk body)
  | none =>
  match lazyCapture "```json\n".data "\n```".data cs with
  | some body => some (false, String.mk body)
  | none =>
  match lazyCapture "```\n".data "\n```".data cs with
  | some body => some (false, String.mk body)
  | none => none

/-! ### Frame Extractor (`extractFramesFromExcalidrawData`, lines 294-350) -/

/-- Property access `v.k` on parsed data: only objects yield fields. -/
def getField : JsonVal → String → Option JsonVal
  | .obj fs, k => lookupA fs k
  | _, _ => none

/-- `typeof element === 'object'` for a non-null value: objects and arrays
(the `!element` guard already excluded `null`, modelled by `JsonVal.null`
failing this test since JS `null` is falsy). -/
def isJsObject : JsonVal → Bool
  | .obj _ => true
  | .arr _ => true
  | _ => false

/-- `element.id || `frame_${i}`` — the element's id when it is a
non-empty string, else the synthetic positional id.  (Excalidraw element ids
are JSON strings, so a truthy non-string id does not occur and is not
distinguished from an absent one.) -/
def frameIdOf (i : Nat) : Option JsonVal → String
  | some (.str s) => if s = "" then "frame_" ++ toString i else s
  | _ => "frame_" ++ toString i

/-- One iteration of the element loop (lines 307-341): skip non-objects; emit
a record iff `element.type === 'frame'`, the name is a truthy string, and the
trimmed name is non-empty.  The emitted name is the trimmed one. -/
def frameOfElement (i : Nat) (e : JsonVal) : Option FrameInfo :=
  if isJsObject e then
    match getField e "type", getField e "name" with
    | some (.str ty), some (.str nm) =>
      if ty = "frame" then
        if nm = "" then none
        else if jsTrim nm = "" then none
        else some ⟨jsTrim nm, frameIdOf i (getField e "id")⟩
      else none
    | _, _ => none
  else none

/-- The element loop, carrying the running index `i`. -/
def extractLoop : List JsonVal → Nat → List FrameInfo
  | [], _ => []
  | e :: rest, i =>
    match frameOfElement i e with
    | some fi => fi :: extractLoop rest (i + 1)
    | none => extractLoop rest (i + 1)

/-- `extractFramesFromExcalidrawData`: no `elements` array (missing, falsy or
not an array — an array field is always truthy, so the truthiness and
`Array.isArray` guards collapse to this single pattern) means zero frames;
otherwise run the element loop from index 0. -/
def extractFramesFromExcalidrawData (d : JsonVal) : List FrameInfo :=
  match getField d "elements" with
  | some (.arr elements) => extractLoop elements 0
  | _ => []

/-! ### Content-Change Detector (`generateContentHash`, lines 186-194) -/

/-- Coerce to a 32-bit two's-complement integer (JS `x & x` after `<<`). -/
def toInt32 (n : Int) : Int :=
  let m := n % 4294967296
  if m < 2147483648 then m else m - 4294967296

/-- `generateContentHash`: the `h * 31 + c` rolling hash written as
`((hash << 5) - hash) + charCode`, wrapped to 32 bits each step, rendered in
decimal.  (`charCodeAt` yields UTF-16 units; `Char.toNat` agrees on the
basic-plane characters that occur here.) -/
def generateContentHash (content : String) : String :=
  toString (content.data.foldl
    (fun h c => toInt32 (toInt32 (h * 32) - h + Int.ofNat c.toNat)) 0)

/-! ### `parseFramesFromContent` (lines 201-288) -/

/-- Lines 276-279: `!excalidrawData || typeof excalidrawData !== 'object'`
rejects everything except truthy objects, i.e. JS objects and arrays. -/
def validateAndExtract (d : JsonVal) : List FrameInfo :=
  if isJsObject d then extractFramesFromExcalidrawData d else []

/-- `parseFramesFromContent`: reject blank content; find the fenced block; on
a compressed block decompress with a plain-JSON-parse fallback, on a plain or
generic block parse with a decompression fallback; every failure path returns
the empty list (all exceptions are caught inside this function). -/
def parseFramesFromContent (env : JsEnv) (content : String) : List FrameInfo :=
  if jsTrim content = "" then []
  else
    match findJsonBlock content with
    | none => []
    | some (true, body) =>
      match ExcalidrawDecompressor.decompress env body with
      | .ok d => validateAndExtract d
      | .error _ =>
        match env.jsonParse body with
        | some d => validateAndExtract d
        | none => []
    | some (false, body) =>
      match env.jsonParse body with
      | some d => validateAndExtract d
      | none =>
        match ExcalidrawDecompressor.decompress env body with
        | .ok d => validateAndExtract d
        | .error _ => []

/-! ### Frame Cache & Index operations -/

/-- Publish a frame list into the index under a short name, but only when it
is non-empty — the `if (frames.length > 0)` guard that every publish site in
part_002 carries. -/
def publishFrames (idx : List (String × List FrameInfo)) (basename : String)
    (frames : List FrameInfo) : List (String × List FrameInfo) :=
  if frames = [] then idx else setA idx basename frames

/-- The tail of `extractFramesFromFileWithCache` after the cache-validity
check failed (stale or absent entry), lines 130-180: read the file (a throwing
read lands in the catch block, which republishes a still-present stale entry
and reports a hit, else reports a miss and leaves the state alone); cache an
empty-content result without publishing; otherwise parse, cache and publish. -/
def processFileAfterMiss (env : JsEnv) (v : Vault) (f : TFile)
    (st : IndexerState) : Bool × IndexerState :=
  match v.content f.path with
  | none =>
    match lookupA st.frameCache f.path with
    | some ce => (true, { st with frameIndex := publishFrames st.frameIndex f.basename ce.frames })
    | none => (false, st)
  | some content =>
    if jsTrim content = "" then
      (false, { st with frameCache := setA st.frameCache f.path ⟨"", [], f.mtime⟩ })
    else
      let frames := parseFramesFromContent env content
      (false, { st with
        frameCache := setA st.frameCache f.path
          ⟨generateContentHash content, frames, f.mtime⟩,
        frameIndex := publishFrames st.frameIndex f.basename frames })

/-- `extractFramesFromFileWithCache` (lines 101-181): reject files with a
falsy path or basename; on a cache entry whose `lastModified` equals the
file's mtime reuse the cached frames and report a hit; otherwise fall through
to `processFileAfterMiss`.  Returns `true` iff the result came from cache. -/
def extractFramesFromFileWithCache (env : JsEnv) (v : Vault) (f : TFile)
    (st : IndexerState) : Bool × IndexerState :=
  if f.path = "" ∨ f.basename = "" then (false, st)
  else
    match lookupA st.frameCache f.path with
    | some ce =>
      if ce.lastModified = f.mtime then
        (true, { st with frameIndex := publishFrames st.frameIndex f.basename ce.frames })
      else processFileAfterMiss env v f st
    | none => processFileAfterMiss env v f st

/-- The file filter of `scanAllExcalidrawFiles` lines 47-54: truthy path with
the `.excalidraw.md` suffix, truthy basename (`file`, `file.stat` are always
present in the model). -/
def isValidExcalidrawFile (f : TFile) : Bool :=
  f.path != "" && jsEndsWith f.path ".excalidraw.md" && f.basename != ""

/-- The candidate list a scan iterates over. -/
def scanFiles (v : Vault) : List TFile :=
  v.files.filter isValidExcalidrawFile

/-- One iteration of the scan loop (lines 66-80): run the cached extraction,
count a hit or a miss, count the file as processed.  `skippedFiles` would be
incremented only if the helper itself threw, and the helper catches every
error internally, so it is never incremented. -/
def scanStep (env : JsEnv) (v : Vault) (acc : ScanReport × IndexerState)
    (f : TFile) : ScanReport × IndexerState :=
  let res := extractFramesFromFileWithCache env v f acc.2
  ({ acc.1 with
      processedFiles := acc.1.processedFiles + 1,
      cacheHits := if res.1 then acc.1.cacheHits + 1 else acc.1.cacheHits,
      cacheMisses := if res.1 then acc.1.cacheMisses else acc.1.cacheMisses + 1 },
   res.2)

/-- `scanAllExcalidrawFiles` (lines 42-95): filter candidates, clear the frame
index but keep the cache, process every file, mark the indexer initialized.
The counters the source logs are returned as the scan report. -/
def scanAllExcalidrawFiles (env : JsEnv) (v : Vault) (st : IndexerState) :
    ScanReport × IndexerState :=
  let res := (scanFiles v).foldl (scanStep env v)
    (⟨0, 0, 0, 0⟩, { st with frameIndex := [] })
  (res.1, { res.2 with isInitialized := true })

/-- `getFramesForFile` (lines 369-371): `frameIndex[fileName] || []`. -/
def getFramesForFile (st : IndexerState) (fileName : String) : List FrameInfo :=
  (lookupA st.frameIndex fileName).getD []

/-- `handleFileModification` (lines 376-394): ignore non-Excalidraw paths;
delete the cache entry to force reprocessing, then re-run the cached
extraction.  The surrounding try/catch never fires since the helper catches
internally. -/
def handleFileModification (env : JsEnv) (v : Vault) (f : TFile)
    (st : IndexerState) : IndexerState :=
  if jsEndsWith f.path ".excalidraw.md" then
    (extractFramesFromFileWithCache env v f
      { st with frameCache := deleteA st.frameCache f.path }).2
  else st

/-- `handleFileDeletion` (lines 399-419): drop the cache entry, and the index
entry when the basename is truthy. -/
def handleFileDeletion (f : TFile) (st : IndexerState) : IndexerState :=
  if jsEndsWith f.path ".excalidraw.md" then
    { st with
      frameCache := deleteA st.frameCache f.path,
      frameIndex :=
        if f.basename ≠ "" then deleteA st.frameIndex f.basename
        else st.frameIndex }
  else st

/-- `oldPath.split('/').pop()?.replace('.excalidraw.md', '') || ''` — last
path component with the first occurrence of the suffix removed. -/
def oldBasenameOf (oldPath : String) : String :=
  let last := (splitSlash oldPath.data).getLastD []
  match splitFirst ".excalidraw.md".data last with
  | some (pre, post) => String.mk (pre ++ post)
  | none => String.mk last

/-- `handleFileRename` (lines 424-454): if the old path was an Excalidraw
file, drop its cache entry and (when non-empty) its old-basename index entry;
if the new path is an Excalidraw file, process it like a miss. -/
def handleFileRename (env : JsEnv) (v : Vault) (f : TFile) (oldPath : String)
    (st : IndexerState) : IndexerState :=
  if !jsEndsWith f.path ".excalidraw.md" && !jsEndsWith oldPath ".excalidraw.md" then st
  else
    let oldBasename := oldBasenameOf oldPath
    let st1 :=
      if jsEndsWith oldPath ".excalidraw.md" then
        { st with
          frameCache := deleteA st.frameCache oldPath,
          frameIndex :=
            if oldBasename ≠ "" then deleteA st.frameIndex oldBasename
            else st.frameIndex }
      else st
    if jsEndsWith f.path ".excalidraw.md" then
      (extractFramesFromFileWithCache env v f st1).2
    else st1

/-- `clearCache` (lines 488-496): clears the `frameCache` map.  The
`frameIndex` is not touched by this method. -/
def clearCache (st : IndexerState) : IndexerState :=
  { st with frameCache := [] }

/-- `forceRescan` (`src/main.ts` lines 132-152): `clearCache` then a full
scan. -/
def forceRescan (env : JsEnv) (v : Vault) (st : IndexerState) :
    ScanReport × IndexerState :=
  scanAllExcalidrawFiles env v (clearCache st)

/-! ### Stated invariants -/

/-- Every frame list stored in an index is non-empty. -/
def IdxWF (idx : List (String × List FrameInfo)) : Prop :=
  ∀ p ∈ idx, p.2 ≠ []

/-- The Index invariant on an indexer state. -/
def IndexWF (st : IndexerState) : Prop :=
  IdxWF st.frameIndex

/-- The element emission condition, phrased as the spec phrases it: the
element is an object, its declared kind tag equals "frame", and it carries a
string name that is non-empty and not whitespace-only after trimming. -/
def QualifiesAsFrame (e : JsonVal) : Prop :=
  isJsObject e = true ∧ getField e "type" = some (.str "frame") ∧
    ∃ nm, getField e "name" = some (.str nm) ∧ jsTrim nm ≠ ""

/-- The frames stored in the cache at a file's path (default irrelevant —
only applied where an entry is known to exist). -/
def cachedFrames (c : List (String × CacheEntry)) (f : TFile) : List FrameInfo :=
  ((lookupA c f.path).getD ⟨"", [], 0⟩).frames

/-- Replay of a scan's publish sequence: publish every file's cached frames
in scan order. -/
def pubAll (c : List (String × CacheEntry)) (fs : List TFile)
    (idx : List (String × List FrameInfo)) : List (String × List FrameInfo) :=
  fs.foldl (fun i f => publishFrames i f.basename (cachedFrames c f)) idx

/-! ### Concrete fixtures used by witnesses and counterexamples -/

/-- An environment in which every external decode facility fails. -/
def envNone : JsEnv :=
  { jsonParse := fun _ => none,
    decompressFromBase64 := fun _ => none,
    decompressFromUTF16 := fun _ => none,
    decompressFromEncodedURIComponent := fun _ => none,
    decompressRaw := fun _ => none }

/-- Parsed document with two frame elements named "A" and "B" (no ids). -/
def dAB : JsonVal := .obj [("elements", .arr
  [.obj [("type", .str "frame"), ("name", .str "A")],
   .obj [("type", .str "frame"), ("name", .str "B")]])]

/-- Parsed document with two frame elements that are byte-for-byte equal:
both named "A" with id "x", standing at ordinals 0 and 1. -/
def dDup : JsonVal := .obj [("elements", .arr
  [.obj [("type", .str "frame"), ("name", .str "A"), ("id", .str "x")],
   .obj [("type", .str "frame"), ("name", .str "A"), ("id", .str "x")]])]

/-- Environment whose only parseable string is the A/B payload. -/
def envAB : JsEnv :=
  { envNone with jsonParse := fun s => if s = "PAYLOAD-AB" then some dAB else none }

/-- A vault holding one Excalidraw document whose fenced block is the A/B
payload. -/
def vAB : Vault :=
  { files := [⟨"draw.excalidraw.md", "draw", 5⟩],
    content := fun p =>
      if p = "draw.excalidraw.md" then some "```json\nPAYLOAD-AB\n```" else none }

/-- The indexer's state at construction time. -/
def st0 : IndexerState := ⟨[], [], false⟩

/-- A vault with no files whose every read throws. -/
def vEmpty : Vault := ⟨[], fun _ => none⟩

/-- A valid Excalidraw file fixture. -/
def fHit : TFile := ⟨"a.excalidraw.md", "a", 7⟩

/-- A cache entry whose stamp matches `fHit`'s mtime. -/
def ceHit : CacheEntry := ⟨"h", [⟨"F", "f1"⟩], 7⟩

/-- State holding a matching cache entry for `fHit`. -/
def stHit : IndexerState := ⟨[], [("a.excalidraw.md", ceHit)], true⟩

/-- State where document "a" was already populated into the Index. -/
def stPop : IndexerState := ⟨[("a", [⟨"F", "f1"⟩])], [], true⟩

/-- State with one Index entry and one cache entry, for the `clearCache`
counterexample. -/
def stC4 : IndexerState := ⟨[("doc", [⟨"A", "a1"⟩])], [("p", ⟨"h", [⟨"A", "a1"⟩], 3⟩)], true⟩

/-- A document whose fenced compressed block is corrupted garbage. -/
def gC9 : String := "```compressed-json\nGARBAGE\n```"

/-- A decompressed payload longer than the 50-character plausibility bound. -/
def payloadC7 : String := "AAAAABBBBBCCCCCDDDDDEEEEEFFFFFGGGGGHHHHHIIIIIJJJJJX"

/-- Environment in which only the UTF-16 strategy decompresses the blob
"BLOB-C7", to the long payload. -/
def envC7 : JsEnv :=
  { envNone with
    decompressFromUTF16 := fun s => if s = "BLOB-C7" then some payloadC7 else none,
    jsonParse := fun s => if s = payloadC7 then some (.obj []) else none }

/-- Parsed document exercising the extractor rules: a malformed (non-object)
element, a frame whose name needs trimming, a null element, a non-frame
element, a frame with a whitespace-only name, and a duplicate-named frame. -/
def dC8 : JsonVal := .obj [("elements", .arr
  [.str "junk",
   .obj [("type", .str "frame"), ("name", .str "  X  ")],
   .null,
   .obj [("type", .str "rectangle"), ("name", .str "R")],
   .obj [("type", .str "frame"), ("name", .str "   ")],
   .obj [("type", .str "frame"), ("name", .str "X")]])]

/-- An Excalidraw file whose read always fails in the vaults below. -/
def fBad : TFile := ⟨"bad.excalidraw.md", "bad", 9⟩

/-- Vault with only the failing document. -/
def vC6 : Vault := ⟨[fBad], fun _ => none⟩

/-- Prior state: "bad" was populated on an earlier scan, no cache entry. -/
def stC6 : IndexerState := ⟨[("bad", [⟨"Old", "o1"⟩])], [], true⟩

/-- Vault with the failing document followed by a good one. -/
def vC6b : Vault :=
  ⟨[fBad, ⟨"draw.excalidraw.md", "draw", 5⟩],
   fun p => if p = "draw.excalidraw.md" then some "```json\nPAYLOAD-AB\n```" else none⟩

/-- Prior state holding a stale cache entry (old mtime 1 ≠ 9) for the failing
document. -/
def stC6c : IndexerState :=
  ⟨[], [("bad.excalidraw.md", ⟨"h", [⟨"Old", "o1"⟩], 1⟩)], true⟩

/-! ## Helper lemmas -/

theorem lookupA_setA_self {α : Type} (m : List (String × α)) (k : String) (v : α) :
    lookupA (setA m k v) k = some v := by
  induction m with
  | nil => simp [setA, lookupA]
  | cons p rest ih =>
    obtain ⟨k', v'⟩ := p
    by_cases h : k' = k
    · simp [setA, h, lookupA]
    · simp [setA, h, lookupA, ih]

theorem lookupA_setA_ne {α : Type} (m : List (String × α)) {k q : String} (v : α)
    (hne : q ≠ k) : lookupA (setA m k v) q = lookupA m q := by
  induction m with
  | nil => simp [setA, lookupA, Ne.symm hne]
  | cons p rest ih =>
    obtain ⟨k', v'⟩ := p
    by_cases h : k' = k
    · subst h; simp [setA, lookupA, Ne.symm hne]
    · by_cases h2 : k' = q
      · subst h2; simp [setA, h, lookupA]
      · simp [setA, h, lookupA, h2, ih]

theorem lookupA_deleteA_self {α : Type} (m : List (String × α)) (k : String) :
    lookupA (deleteA m k) k = none := by
  induction m with
  | nil => simp [deleteA, lookupA]
  | cons p rest ih =>
    obtain ⟨k', v'⟩ := p
    by_cases h : k' = k <;> simp [deleteA, h, lookupA, ih]

theorem lookupA_deleteA_ne {α : Type} (m : List (String × α)) {k q : String}
    (hne : q ≠ k) : lookupA (deleteA m k) q = lookupA m q := by
  induction m with
  | nil => simp [deleteA, lookupA]
  | cons p rest ih =>
    obtain ⟨k', v'⟩ := p
    by_cases h : k' = k
    · subst h; simp [deleteA, lookupA, Ne.symm hne, ih]
    · by_cases h2 : k' = q
      · subst h2; simp [deleteA, h, lookupA]
      · simp [deleteA, h, lookupA, h2, ih]

theorem mem_deleteA {α : Type} {m : List (String × α)} {k : String}
    {p : String × α} (hp : p ∈ deleteA m k) : p ∈ m := by
  induction m with
  | nil => simp [deleteA] at hp
  | cons q rest ih =>
    obtain ⟨k', v'⟩ := q
    by_cases h : k' = k
    · simp [deleteA, h] at hp
      exact List.mem_cons_of_mem _ (ih hp)
    · simp [deleteA, h] at hp
      rcases hp with hp | hp
      · simp [hp]
      · exact List.mem_cons_of_mem _ (ih hp)

theorem lookupA_publishFrames_ne (idx : List (String × List FrameInfo))
    {b q : String} (fr : List FrameInfo) (hne : q ≠ b) :
    lookupA (publishFrames idx b fr) q = lookupA idx q := by
  unfold publishFrames
  by_cases h : fr = [] <;> simp [h, lookupA_setA_ne _ _ hne]

theorem IdxWF_setA {idx : List (String × List FrameInfo)} {b : String}
    {fr : List FrameInfo} (hwf : IdxWF idx) (hfr : fr ≠ []) :
    IdxWF (setA idx b fr) := by
  induction idx with
  | nil => intro p hp; simp [setA] at hp; subst hp; exact hfr
  | cons q rest ih =>
    obtain ⟨k', v'⟩ := q
    intro p hp
    have hwf' : IdxWF rest := fun r hr => hwf r (List.mem_cons_of_mem _ hr)
    by_cases h : k' = b
    · simp [setA, h] at hp
      rcases hp with hp | hp
      · subst hp; exact hfr
      · exact hwf p (List.mem_cons_of_mem _ hp)
    · simp [setA, h] at hp
      rcases hp with hp | hp
      · subst hp; exact hwf ⟨k', v'⟩ (List.mem_cons_self _ _)
      · exact ih hwf' p hp

theorem IdxWF_publishFrames {idx : List (String × List FrameInfo)} {b : String}
    {fr : List FrameInfo} (hwf : IdxWF idx) : IdxWF (publishFrames idx b fr) := by
  unfold publishFrames
  by_cases h : fr = []
  · simpa [h]
  · simpa [h] using IdxWF_setA hwf h

theorem IdxWF_deleteA {idx : List (String × List FrameInfo)} {b : String}
    (hwf : IdxWF idx) : IdxWF (deleteA idx b) := by
  intro p hp
  exact hwf p (mem_deleteA hp)

/-- The cache-hit branch of `extractFramesFromFileWithCache`: a valid file
with a cache entry whose `lastModified` equals the file's mtime is served
from cache — result flag `true`, cached frames republished, cache untouched,
and neither the environment nor the vault is consulted. -/
theorem extract_hit (env : JsEnv) (v : Vault) (f : TFile) (st : IndexerState)
    (hp : f.path ≠ "") (hb : f.basename ≠ "") (ce : CacheEntry)
    (hce : lookupA st.frameCache f.path = some ce)
    (hm : ce.lastModified = f.mtime) :
    extractFramesFromFileWithCache env v f st =
      (true, { st with frameIndex := publishFrames st.frameIndex f.basename ce.frames }) := by
  have h0 : ¬(f.path = "" ∨ f.basename = "") := by tauto
  simp [extractFramesFromFileWithCache, h0, hce, hm]

/-- The processed branch: a valid file whose read succeeds ends with a cache
entry at its path stamped with the current mtime, its frames (possibly from
an already-valid cache entry) published, entries at other paths untouched,
and the initialization flag unchanged. -/
theorem extract_processed (env : JsEnv) (v : Vault) (f : TFile) (st : IndexerState)
    (hp : f.path ≠ "") (hb : f.basename ≠ "") (hr : (v.content f.path).isSome) :
    ∃ ce : CacheEntry,
      lookupA (extractFramesFromFileWithCache env v f st).2.frameCache f.path = some ce ∧
      ce.lastModified = f.mtime ∧
      (extractFramesFromFileWithCache env v f st).2.frameIndex
        = publishFrames st.frameIndex f.basename ce.frames ∧
      (∀ p, p ≠ f.path →
        lookupA (extractFramesFromFileWithCache env v f st).2.frameCache p
          = lookupA st.frameCache p) ∧
      (extractFramesFromFileWithCache env v f st).2.isInitialized = st.isInitialized := by
  have h0 : ¬(f.path = "" ∨ f.basename = "") := by tauto
  rcases hc : v.content f.path with _ | content
  · rw [hc] at hr; simp at hr
  have hmiss : ∀ hst : IndexerState, hst = st →
      ∃ ce : CacheEntry,
        lookupA (processFileAfterMiss env v f st).2.frameCache f.path = some ce ∧
        ce.lastModified = f.mtime ∧
        (processFileAfterMiss env v f st).2.frameIndex
          = publishFrames st.frameIndex f.basename ce.frames ∧
        (∀ p, p ≠ f.path →
          lookupA (processFileAfterMiss env v f st).2.frameCache p
            = lookupA st.frameCache p) ∧
        (processFileAfterMiss env v f st).2.isInitialized = st.isInitialized := by
    intro _ _
    by_cases ht : jsTrim content = ""
    · refine ⟨⟨"", [], f.mtime⟩, ?_, rfl, ?_, ?_, ?_⟩ <;>
        simp [processFileAfterMiss, hc, ht, publishFrames, lookupA_setA_self]
      intro p hpne
      simp [lookupA_setA_ne _ _ hpne]
    · refine ⟨⟨generateContentHash content, parseFramesFromContent env content, f.mtime⟩,
        ?_, rfl, ?_, ?_, ?_⟩ <;>
        simp [processFileAfterMiss, hc, ht, lookupA_setA_self]
      intro p hpne
      simp [lookupA_setA_ne _ _ hpne]
  rcases hce : lookupA st.frameCache f.path with _ | ce₀
  · have := hmiss st rfl
    simpa [extractFramesFromFileWithCache, h0, hce] using this
  · by_cases hm : ce₀.lastModified = f.mtime
    · refine ⟨ce₀, ?_, hm, ?_, ?_, ?_⟩ <;>
        simp [extract_hit env v f st hp hb ce₀ hce hm, hce]
    · have := hmiss st rfl
      simpa [extractFramesFromFileWithCache, h0, hce, hm] using this

/-- Whatever branch `extractFramesFromFileWithCache` takes, the index is
either untouched or one publish at the file's basename. -/
theorem extract_index_shape (env : JsEnv) (v : Vault) (f : TFile) (st : IndexerState) :
    (extractFramesFromFileWithCache env v f st).2.frameIndex = st.frameIndex ∨
    ∃ fr, (extractFramesFromFileWithCache env v f st).2.frameIndex
      = publishFrames st.frameIndex f.basename fr := by
  by_cases h0 : f.path = "" ∨ f.basename = ""
  · left; simp [extractFramesFromFileWithCache, h0]
  · have hmiss : (processFileAfterMiss env v f st).2.frameIndex = st.frameIndex ∨
        ∃ fr, (processFileAfterMiss env v f st).2.frameIndex
          = publishFrames st.frameIndex f.basename fr := by
      rcases hc : v.content f.path with _ | content
      · rcases hce : lookupA st.frameCache f.path with _ | ce
        · left; simp [processFileAfterMiss, hc, hce]
        · right; exact ⟨ce.frames, by simp [processFileAfterMiss, hc, hce]⟩
      · by_cases ht : jsTrim content = ""
        · left; simp [processFileAfterMiss, hc, ht]
        · right
          exact ⟨parseFramesFromContent env content, by simp [processFileAfterMiss, hc, ht]⟩
    rcases hce : lookupA st.frameCache f.path with _ | ce
    · simpa [extractFramesFromFileWithCache, h0, hce] using hmiss
    · by_cases hmt : ce.lastModified = f.mtime
      · right
        exact ⟨ce.frames, by simp [extractFramesFromFileWithCache, h0, hce, hmt]⟩
      · simpa [extractFramesFromFileWithCache, h0, hce, hmt] using hmiss

/-- Processing one file never changes the Index entry of another short
name. -/
theorem extract_preserves_other_names (env : JsEnv) (v : Vault) (f : TFile)
    (st : IndexerState) {name : String} (hne : name ≠ f.basename) :
    getFramesForFile (extractFramesFromFileWithCache env v f st).2 name
      = getFramesForFile st name := by
  rcases extract_index_shape env v f st with h | ⟨fr, h⟩ <;>
    simp [getFramesForFile, h, lookupA_publishFrames_ne _ _ hne]

/-- Processing one file preserves the non-empty-lists Index invariant. -/
theorem extract_preserves_WF (env : JsEnv) (v : Vault) (f : TFile)
    (st : IndexerState) (hwf : IndexWF st) :
    IndexWF (extractFramesFromFileWithCache env v f st).2 := by
  rcases extract_index_shape env v f st with h | ⟨fr, h⟩
  · unfold IndexWF at *; rw [h]; exact hwf
  · unfold IndexWF at *; rw [h]; exact IdxWF_publishFrames hwf

/-- No branch of the per-file step reads `isInitialized`; it is carried
through unchanged. -/
theorem extract_initialized_irrelevant (env : JsEnv) (v : Vault) (f : TFile)
    (st : IndexerState) (b : Bool) :
    extractFramesFromFileWithCache env v f { st with isInitialized := b }
      = ((extractFramesFromFileWithCache env v f st).1,
         { (extractFramesFromFileWithCache env v f st).2 with isInitialized := b }) := by
  have hmiss : processFileAfterMiss env v f { st with isInitialized := b }
      = ((processFileAfterMiss env v f st).1,
         { (processFileAfterMiss env v f st).2 with isInitialized := b }) := by
    rcases hc : v.content f.path with _ | content
    · rcases hce : lookupA st.frameCache f.path with _ | ce <;>
        simp [processFileAfterMiss, hc, hce]
    · by_cases ht : jsTrim content = "" <;>
        simp [processFileAfterMiss, hc, ht]
  by_cases h0 : f.path = "" ∨ f.basename = ""
  · simp [extractFramesFromFileWithCache, h0]
  · rcases hce : lookupA st.frameCache f.path with _ | ce
    · simpa [extractFramesFromFileWithCache, h0, hce] using hmiss
    · by_cases hmt : ce.lastModified = f.mtime
      · simp [extractFramesFromFileWithCache, h0, hce, hmt]
      · simpa [extractFramesFromFileWithCache, h0, hce, hmt] using hmiss

/-- The scan loop also carries `isInitialized` through unchanged. -/
theorem scanFold_initialized_irrelevant (env : JsEnv) (v : Vault) :
    ∀ (fs : List TFile) (r : ScanReport) (st : IndexerState) (b : Bool),
    List.foldl (scanStep env v) (r, { st with isInitialized := b }) fs
      = ((List.foldl (scanStep env v) (r, st) fs).1,
         { (List.foldl (scanStep env v) (r, st) fs).2 with isInitialized := b }) := by
  intro fs
  induction fs with
  | nil => intro r st b; rfl
  | cons f rest ih =>
    intro r st b
    simp only [List.foldl_cons]
    rw [show scanStep env v (r, { st with isInitialized := b }) f
        = ((scanStep env v (r, st) f).1,
           { (scanStep env v (r, st) f).2 with isInitialized := b }) by
      simp [scanStep, extract_initialized_irrelevant]]
    exact ih _ _ _

/-- A forced rescan rebuilds from scratch: its outcome does not depend on the
state it starts from. -/
theorem forceRescan_from_scratch (env : JsEnv) (v : Vault) (st st2 : IndexerState) :
    forceRescan env v st = forceRescan env v st2 := by
  have key : ∀ s : IndexerState, forceRescan env v s
      = ((List.foldl (scanStep env v) (⟨0, 0, 0, 0⟩, (⟨[], [], false⟩ : IndexerState)) (scanFiles v)).1,
         { (List.foldl (scanStep env v) (⟨0, 0, 0, 0⟩, (⟨[], [], false⟩ : IndexerState)) (scanFiles v)).2
            with isInitialized := true }) := by
    intro s
    show ((List.foldl (scanStep env v) (⟨0, 0, 0, 0⟩, (⟨[], [], s.isInitialized⟩ : IndexerState)) (scanFiles v)).1,
         { (List.foldl (scanStep env v) (⟨0, 0, 0, 0⟩, (⟨[], [], s.isInitialized⟩ : IndexerState)) (scanFiles v)).2
            with isInitialized := true }) = _
    rw [show (⟨[], [], s.isInitialized⟩ : IndexerState)
        = { (⟨[], [], false⟩ : IndexerState) with isInitialized := s.isInitialized } from rfl]
    rw [scanFold_initialized_irrelevant]
  rw [key st, key st2]

/-! ## Claim theorems -/

/-- C1: a document with a cache entry whose `lastModified` equals the current
modification time is served from cache by the scan's per-document step: the
cached frame list is republished under the document's short name, the step
reports a cache hit (the scan loop increments its hit counter), and the
computation consults neither the vault (no re-read of the document) nor the
decode environment (no Decoder/Extractor invocation): the result is identical
under any two environments and any two content stores. -/
theorem cache_hit_reuses_cached_frames (env₁ env₂ : JsEnv) (v₁ v₂ : Vault)
    (f : TFile) (st : IndexerState) (hp : f.path ≠ "") (hb : f.basename ≠ "")
    (ce : CacheEntry) (hce : lookupA st.frameCache f.path = some ce)
    (hm : ce.lastModified = f.mtime) :
    extractFramesFromFileWithCache env₁ v₁ f st =
      (true, { st with frameIndex := publishFrames st.frameIndex f.basename ce.frames }) ∧
    extractFramesFromFileWithCache env₁ v₁ f st
      = extractFramesFromFileWithCache env₂ v₂ f st ∧
    ∀ r : ScanReport, scanStep env₁ v₁ (r, st) f =
      ({ r with processedFiles := r.processedFiles + 1, cacheHits := r.cacheHits + 1 },
       { st with frameIndex := publishFrames st.frameIndex f.basename ce.frames }) := by
  have h₁ := extract_hit env₁ v₁ f st hp hb ce hce hm
  have h₂ := extract_hit env₂ v₂ f st hp hb ce hce hm
  refine ⟨h₁, h₁.trans h₂.symm, fun r => ?_⟩
  simp [scanStep, h₁]

/-- C1 witness: a concrete cached document is served identically under two
different environments and vaults, reported as a hit. -/
theorem cache_hit_reuses_cached_frames_witness :
    extractFramesFromFileWithCache envNone vEmpty fHit stHit =
      (true, { stHit with frameIndex := publishFrames stHit.frameIndex fHit.basename ceHit.frames }) ∧
    extractFramesFromFileWithCache envNone vEmpty fHit stHit
      = extractFramesFromFileWithCache envAB vAB fHit stHit ∧
    ∀ r : ScanReport, scanStep envNone vEmpty (r, stHit) fHit =
      ({ r with processedFiles := r.processedFiles + 1, cacheHits := r.cacheHits + 1 },
       { stHit with frameIndex := publishFrames stHit.frameIndex fHit.basename ceHit.frames }) :=
  cache_hit_reuses_cached_frames envNone envAB vEmpty vAB fHit stHit
    (by decide) (by decide) ceHit rfl rfl

/-- C3: when a document whose path has the tracked suffix is re-processed by
`handleFileModification` and its read now fails, the error is caught inside
the operation and the whole Index — in particular the entry under the
document's short name — is exactly what it was before the call, so
`getFramesForDocument` still returns the previous (possibly stale) list. -/
theorem modification_read_error_keeps_stale_index (env : JsEnv) (v : Vault)
    (f : TFile) (st : IndexerState)
    (hf : jsEndsWith f.path ".excalidraw.md" = true)
    (hr : v.content f.path = none) :
    (handleFileModification env v f st).frameIndex = st.frameIndex ∧
    ∀ name, getFramesForFile (handleFileModification env v f st) name
      = getFramesForFile st name := by
  have hidx : (handleFileModification env v f st).frameIndex = st.frameIndex := by
    unfold handleFileModification
    rw [if_pos hf]
    by_cases h0 : f.path = "" ∨ f.basename = ""
    · simp [extractFramesFromFileWithCache, h0]
    · simp [extractFramesFromFileWithCache, h0, lookupA_deleteA_self,
        processFileAfterMiss, hr]
  exact ⟨hidx, fun name => by simp [getFramesForFile, hidx]⟩

/-- C3 witness: after a successful population of "a", a modification whose
read fails leaves the stale frames in place. -/
theorem modification_read_error_keeps_stale_index_witness :
    (handleFileModification envNone vEmpty fHit stPop).frameIndex = stPop.frameIndex ∧
    getFramesForFile (handleFileModification envNone vEmpty fHit stPop) "a"
      = getFramesForFile stPop "a" :=
  ⟨(modification_read_error_keeps_stale_index envNone vEmpty fHit stPop (by decide) rfl).1,
   (modification_read_error_keeps_stale_index envNone vEmpty fHit stPop (by decide) rfl).2 "a"⟩

/-- C4 counterexample: `clearCache` empties the cache map but does NOT drop
the Index entries — after `clear()` on a state holding frames for "doc",
`getFramesForDocument "doc"` still returns the old non-empty list, refuting
"getFramesForDocument returns the empty list for every short name". -/
theorem clearCache_leaves_index_counterexample :
    (clearCache stC4).frameCache = [] ∧
    getFramesForFile (clearCache stC4) "doc" = [⟨"A", "a1"⟩] ∧
    getFramesForFile (clearCache stC4) "doc" ≠ [] :=
  ⟨rfl, rfl, by decide⟩

/-- C4 amended: `clearCache` drops all CacheEntries but leaves the Index
untouched; `forceRescan` is `clearCache` followed by `scanAll`, and since the
scan itself resets the Index and the cache was emptied, a forced rescan
rebuilds everything from scratch — its outcome is independent of the prior
state. -/
theorem clearCache_spec (st : IndexerState) :
    (clearCache st).frameCache = [] ∧
    (clearCache st).frameIndex = st.frameIndex ∧
    (∀ env v, forceRescan env v st = scanAllExcalidrawFiles env v (clearCache st)) ∧
    (∀ env v st2, forceRescan env v st = forceRescan env v st2) :=
  ⟨rfl, rfl, fun _ _ => rfl, fun env v st2 => forceRescan_from_scratch env v st st2⟩

/-- C5 counterexample: extraction of a document holding two identical frame
elements (same name "A", same id "x") at ordinals 0 and 1 yields two records
that are EQUAL — a `FrameRecord` carries only `name` and `id`, so no field of
the produced records equals the element's ordinal position (records at
ordinals 0 and 1 would otherwise differ). -/
theorem frameRecord_has_no_index_field_counterexample :
    extractFramesFromExcalidrawData dDup = [⟨"A", "x"⟩, ⟨"A", "x"⟩] ∧
    (extractFramesFromExcalidrawData dDup)[0]?
      = (extractFramesFromExcalidrawData dDup)[1]? :=
  ⟨rfl, rfl⟩

/-- C5 amended: frame records carry only `name` and `id`; the ordinal
position of a frame element is reflected by the record's position in the
returned list and, when the element has no id, by the synthetic id
`frame_<ordinal>`; for a document whose uncompressed payload holds two frame
elements named "A" and "B", `getFramesForDocument` returns exactly the
records named "A" then "B" in ordinal order with synthetic ids `frame_0` and
`frame_1`. -/
theorem frame_records_in_ordinal_order :
    getFramesForFile (scanAllExcalidrawFiles envAB vAB st0).2 "draw"
      = [⟨"A", "frame_0"⟩, ⟨"B", "frame_1"⟩] ∧
    extractFramesFromExcalidrawData dAB
      = [⟨"A", "frame_0"⟩, ⟨"B", "frame_1"⟩] := by
  exact ⟨by decide, by decide⟩

/-- C9: a document whose fenced block fails every decode path (corrupted
garbage) yields the empty frame list from `parseFramesFromContent` — which
returns a list on every path, so no exception crosses the parsing boundary —
and so does a document whose block is truncated (no complete fenced block);
moreover processing any single document never changes the Index entry of any
other short name. -/
theorem corrupted_block_yields_empty_frames (env : JsEnv) :
    (∀ content body, findJsonBlock content = some (true, body) →
      ExcalidrawDecompressor.decompress env body = .error () →
      env.jsonParse body = none →
      parseFramesFromContent env content = []) ∧
    (∀ content body, findJsonBlock content = some (false, body) →
      env.jsonParse body = none →
      ExcalidrawDecompressor.decompress env body = .error () →
      parseFramesFromContent env content = []) ∧
    (∀ content, findJsonBlock content = none → parseFramesFromContent env content = []) ∧
    (∀ v f st name, name ≠ f.basename →
      getFramesForFile (extractFramesFromFileWithCache env v f st).2 name
        = getFramesForFile st name) := by
  refine ⟨?_, ?_, ?_, ?_⟩
  · intro content body hb hd hj
    by_cases ht : jsTrim content = "" <;>
      simp [parseFramesFromContent, ht, hb, hd, hj]
  · intro content body hb hj hd
    by_cases ht : jsTrim content = "" <;>
      simp [parseFramesFromContent, ht, hb, hd, hj]
  · intro content hb
    by_cases ht : jsTrim content = "" <;>
      simp [parseFramesFromContent, ht, hb]
  · intro v f st name hne
    exact extract_preserves_other_names env v f st hne

/-- C9 witness: a concrete corrupted compressed block decodes to zero
frames. -/
theorem corrupted_block_yields_empty_frames_witness :
    parseFramesFromContent envNone gC9 = [] :=
  (corrupted_block_yields_empty_frames envNone).1 gC9 "GARBAGE" rfl rfl rfl

/-- C7: `decompress` strips all whitespace from its input and then equals the
first-accepted-strategy scan over the fixed order base64, UTF-16,
URI-component, raw — a strategy accepted exactly when its output exceeds 50
characters and parses, the first acceptance winning and the all-fail case
throwing a decode error; consequently, a payload longer than 50 characters
that parses to `d`, compressed under ANY of the four encodings, decodes to
exactly `d` as long as the strategies before the matching one reject the
blob. -/
theorem decompress_fixed_order_first_wins (env : JsEnv) (raw : String) :
    (ExcalidrawDecompressor.decompress env raw
      = match firstAccept env.jsonParse (strategyList env) (stripJsWhitespace raw) with
        | some v => .ok v
        | none => .error ()) ∧
    (∀ (payload : String) (d : JsonVal) (k : Fin 4),
      ((strategyList env).get k) (stripJsWhitespace raw) = some payload →
      payload.length > 50 →
      env.jsonParse payload = some d →
      (∀ j : Fin 4, j < k →
        strategyAccept env.jsonParse ((strategyList env).get j) (stripJsWhitespace raw) = none) →
      ExcalidrawDecompressor.decompress env raw = .ok d) := by
  constructor
  · cases h1 : strategyAccept env.jsonParse env.decompressFromBase64 (stripJsWhitespace raw) <;>
    cases h2 : strategyAccept env.jsonParse env.decompressFromUTF16 (stripJsWhitespace raw) <;>
    cases h3 : strategyAccept env.jsonParse env.decompressFromEncodedURIComponent (stripJsWhitespace raw) <;>
    cases h4 : strategyAccept env.jsonParse env.decompressRaw (stripJsWhitespace raw) <;>
      simp [ExcalidrawDecompressor.decompress, firstAccept, strategyList, h1, h2, h3, h4]
  · intro payload d k hdec hlen hparse hearlier
    have hacc : strategyAccept env.jsonParse ((strategyList env).get k)
        (stripJsWhitespace raw) = some d := by
      simp [strategyAccept, hdec, hlen, hparse]
    fin_cases k
    · simp only [strategyList, List.get] at hacc
      simp [ExcalidrawDecompressor.decompress, hacc]
    · have h0 := hearlier 0 (by decide)
      simp only [strategyList, List.get] at hacc h0
      simp [ExcalidrawDecompressor.decompress, h0, hacc]
    · have h0 := hearlier 0 (by decide)
      have h1 := hearlier 1 (by decide)
      simp only [strategyList, List.get] at hacc h0 h1
      simp [ExcalidrawDecompressor.decompress, h0, h1, hacc]
    · have h0 := hearlier 0 (by decide)
      have h1 := hearlier 1 (by decide)
      have h2 := hearlier 2 (by decide)
      simp only [strategyList, List.get] at hacc h0 h1 h2
      simp [ExcalidrawDecompressor.decompress, h0, h1, h2, hacc]

/-- C7 witness: a whitespace-littered blob that only the second (UTF-16)
strategy can decompress decodes to the parse of its long payload. -/
theorem decompress_fixed_order_first_wins_witness :
    ExcalidrawDecompressor.decompress envC7 "BL OB\n-C7" = .ok (.obj []) :=
  (decompress_fixed_order_first_wins envC7 "BL OB\n-C7").2 payloadC7 (.obj []) 1
    rfl (by decide) rfl
    (by intro j hj
        fin_cases j
        · rfl
        · exact absurd hj (by decide)
        · exact absurd hj (by decide)
        · exact absurd hj (by decide))

/-- The element loop is a filterMap of the per-element emission over the
ordinally-numbered element list. -/
theorem extractLoop_eq_filterMap (es : List JsonVal) :
    ∀ i, extractLoop es i
      = (List.enumFrom i es).filterMap (fun p => frameOfElement p.1 p.2) := by
  induction es with
  | nil => intro i; simp [extractLoop]
  | cons e rest ih =>
    intro i
    cases h : frameOfElement i e <;>
      simp [extractLoop, List.enumFrom, List.filterMap_cons, h, ih]

/-- C8: extraction iterates the element collection in document order, emitting
one record per element exactly when the element is an object whose kind tag is
"frame" with a string name that trims to something non-empty (so two
same-named frames yield two distinct records and malformed elements are
skipped without aborting the rest), the record being the trimmed name with
the element's id (or the synthetic positional one); and a document without an
element collection yields the empty list, not an error. -/
theorem extractor_characterization (d : JsonVal) :
    (∀ es, getField d "elements" = some (.arr es) →
      extractFramesFromExcalidrawData d
        = (List.enumFrom 0 es).filterMap (fun p => frameOfElement p.1 p.2)) ∧
    ((∀ es, getField d "elements" ≠ some (.arr es)) →
      extractFramesFromExcalidrawData d = []) ∧
    (∀ i e, (frameOfElement i e).isSome ↔ QualifiesAsFrame e) ∧
    (∀ i e nm, isJsObject e = true →
      getField e "type" = some (.str "frame") →
      getField e "name" = some (.str nm) → jsTrim nm ≠ "" →
      frameOfElement i e = some ⟨jsTrim nm, frameIdOf i (getField e "id")⟩) := by
  refine ⟨?_, ?_, ?_, ?_⟩
  · intro es hf
    simp [extractFramesFromExcalidrawData, hf, extractLoop_eq_filterMap]
  · intro h
    rcases hf : getField d "elements" with _ | val
    · simp [extractFramesFromExcalidrawData, hf]
    · cases val <;> first
        | exact absurd hf (h _)
        | simp [extractFramesFromExcalidrawData, hf]
  · intro i e
    by_cases ho : isJsObject e = true
    · rcases ht : getField e "type" with _ | t
      · simp [frameOfElement, QualifiesAsFrame, ho, ht]
      · rcases hn : getField e "name" with _ | n
        · cases t <;> simp [frameOfElement, QualifiesAsFrame, ho, ht, hn]
        · cases t <;> cases n <;>
            simp only [frameOfElement, QualifiesAsFrame, ho, ht, hn, if_true] <;>
            try simp
          rename_i ty nm
          by_cases hty : ty = "frame"
          · subst hty
            by_cases hnm : nm = ""
            · subst hnm
              simp [jsTrim]
            · by_cases htr : jsTrim nm = "" <;> simp [hnm, htr]
          · simp [hty, Ne.symm hty]
    · simp [frameOfElement, QualifiesAsFrame, ho]
  · intro i e nm ho ht hn htr
    have hnm : nm ≠ "" := by
      intro h'; subst h'; exact htr rfl
    simp [frameOfElement, ho, ht, hn, hnm, htr]

/-- C8 witness: the mixed document yields exactly the two records for the two
qualifying frames, in document order, names trimmed, duplicates distinct,
junk skipped. -/
theorem extractor_characterization_witness :
    extractFramesFromExcalidrawData dC8 = [⟨"X", "frame_1"⟩, ⟨"X", "frame_5"⟩] :=
  ((extractor_characterization dC8).1 _ rfl).trans (by decide)

/-- The scan loop preserves the non-empty-lists Index invariant. -/
theorem scanFold_WF (env : JsEnv) (v : Vault) :
    ∀ (fs : List TFile) (r : ScanReport) (st : IndexerState),
    IndexWF st → IndexWF (List.foldl (scanStep env v) (r, st) fs).2 := by
  intro fs
  induction fs with
  | nil => intro r st h; exact h
  | cons f rest ih =>
    intro r st h
    simp only [List.foldl_cons]
    exact ih _ _ (extract_preserves_WF env v f st h)

/-- The scan loop never touches the skipped counter (the per-file helper
catches every error internally, so the loop's catch never fires). -/
theorem scanFold_skipped (env : JsEnv) (v : Vault) :
    ∀ (fs : List TFile) (r : ScanReport) (st : IndexerState),
    (List.foldl (scanStep env v) (r, st) fs).1.skippedFiles = r.skippedFiles := by
  intro fs
  induction fs with
  | nil => intro r st; rfl
  | cons f rest ih =>
    intro r st
    simp only [List.foldl_cons]
    rw [ih]
    rfl

/-- C10: every frame list stored in the Index is non-empty — a zero-frame
publish is the identity, every operation of the indexer preserves the
invariant (a full scan establishes it outright), and a short name absent from
the Index reads back as the empty list, exactly like a zero-frame document
that was never published. -/
theorem index_entries_nonempty_invariant (env : JsEnv) (v : Vault) :
    (∀ idx b, publishFrames idx b [] = idx) ∧
    (∀ f st, IndexWF st → IndexWF (extractFramesFromFileWithCache env v f st).2) ∧
    (∀ st, IndexWF (scanAllExcalidrawFiles env v st).2) ∧
    (∀ f st, IndexWF st → IndexWF (handleFileModification env v f st)) ∧
    (∀ f st, IndexWF st → IndexWF (handleFileDeletion f st)) ∧
    (∀ f oldPath st, IndexWF st → IndexWF (handleFileRename env v f oldPath st)) ∧
    (∀ st, IndexWF st → IndexWF (clearCache st)) ∧
    (∀ st, IndexWF (forceRescan env v st).2) ∧
    (∀ st name, lookupA st.frameIndex name = none → getFramesForFile st name = []) := by
  have hscan : ∀ st, IndexWF (scanAllExcalidrawFiles env v st).2 := by
    intro st
    have h0 : IndexWF ({ st with frameIndex := [] } : IndexerState) := by
      intro p hp; simp at hp
    have := scanFold_WF env v (scanFiles v) ⟨0, 0, 0, 0⟩ _ h0
    simpa [scanAllExcalidrawFiles, IndexWF, IdxWF] using this
  refine ⟨fun idx b => by simp [publishFrames],
    fun f st h => extract_preserves_WF env v f st h,
    hscan, ?_, ?_, ?_,
    fun st h => h,
    fun st => hscan (clearCache st),
    fun st name h => by simp [getFramesForFile, h]⟩
  · intro f st h
    unfold handleFileModification
    by_cases hf : jsEndsWith f.path ".excalidraw.md" = true
    · rw [if_pos hf]
      exact extract_preserves_WF env v f _ h
    · rw [if_neg hf]
      exact h
  · intro f st h
    unfold handleFileDeletion
    by_cases hf : jsEndsWith f.path ".excalidraw.md" = true
    · rw [if_pos hf]
      by_cases hb : f.basename ≠ ""
      · rw [if_pos hb]
        exact IdxWF_deleteA h
      · rw [if_neg hb]
        exact h
    · rw [if_neg hf]
      exact h
  · intro f oldPath st h
    have hWFdel : IndexWF { st with
        frameCache := deleteA st.frameCache oldPath,
        frameIndex := if oldBasenameOf oldPath ≠ "" then
          deleteA st.frameIndex (oldBasenameOf oldPath) else st.frameIndex } := by
      by_cases hb : oldBasenameOf oldPath ≠ ""
      · show IdxWF (if oldBasenameOf oldPath ≠ "" then _ else _)
        rw [if_pos hb]
        exact IdxWF_deleteA h
      · show IdxWF (if oldBasenameOf oldPath ≠ "" then _ else _)
        rw [if_neg hb]
        exact h
    unfold handleFileRename
    cases hnew : jsEndsWith f.path ".excalidraw.md" <;>
      cases hold : jsEndsWith oldPath ".excalidraw.md" <;>
      simp only [Bool.not_true, Bool.not_false, Bool.and_true, Bool.and_false,
        Bool.true_and, Bool.false_and, if_true, if_false, Bool.true_eq_false,
        Bool.false_eq_true, ite_true, ite_false, reduceIte]
    · exact h
    · exact hWFdel
    · exact extract_preserves_WF env v f st h
    · exact extract_preserves_WF env v f _ hWFdel

/-- C10 witness: the invariant holds on a concrete populated state and is
preserved by a concrete deletion and established by a concrete scan. -/
theorem index_entries_nonempty_invariant_witness :
    IndexWF stPop ∧ IndexWF (handleFileDeletion fHit stPop) ∧
    IndexWF (scanAllExcalidrawFiles envAB vAB stC4).2 :=
  ⟨by unfold IndexWF IdxWF; decide,
   (index_entries_nonempty_invariant envAB vAB).2.2.2.2.1 fHit stPop
     (by unfold IndexWF IdxWF; decide),
   (index_entries_nonempty_invariant envAB vAB).2.2.1 stC4⟩

/-- C6 counterexample: a document whose read throws during `scanAll`, with no
prior cache entry, is counted as a cache MISS (the skipped counter stays 0),
and its prior Index entry — far from being left untouched — is gone after
the scan, because `scanAll` clears the index up front and the failing
document is never republished. -/
theorem failing_document_not_skipped_counterexample :
    (scanAllExcalidrawFiles envNone vC6 stC6).1 = ⟨1, 0, 1, 0⟩ ∧
    getFramesForFile (scanAllExcalidrawFiles envNone vC6 stC6).2 "bad" = [] ∧
    getFramesForFile stC6 "bad" = [⟨"Old", "o1"⟩] :=
  ⟨by decide, by decide, by decide⟩

/-- C6 amended: errors raised while processing a document during `scanAll`
are caught inside the per-document helper, so the scan's skipped counter is
always 0; a failing document with a prior cache entry is counted as a cache
hit and its cached frames are republished, one without a cache entry is
counted as a cache miss and ends the scan with no Index entry (the scan
cleared the index at the start); either way the remaining documents are still
processed. -/
theorem scan_errors_caught_per_file :
    (∀ (env : JsEnv) (v : Vault) (st : IndexerState),
      (scanAllExcalidrawFiles env v st).1.skippedFiles = 0) ∧
    ((scanAllExcalidrawFiles envAB vC6b st0).1 = ⟨2, 0, 2, 0⟩ ∧
      getFramesForFile (scanAllExcalidrawFiles envAB vC6b st0).2 "draw"
        = [⟨"A", "frame_0"⟩, ⟨"B", "frame_1"⟩] ∧
      getFramesForFile (scanAllExcalidrawFiles envAB vC6b st0).2 "bad" = []) ∧
    ((scanAllExcalidrawFiles envNone vC6 stC6c).1 = ⟨1, 1, 0, 0⟩ ∧
      getFramesForFile (scanAllExcalidrawFiles envNone vC6 stC6c).2 "bad"
        = [⟨"Old", "o1"⟩]) := by
  refine ⟨?_, ⟨by decide, by decide, by decide⟩, ⟨by decide, by decide⟩⟩
  intro env v st
  simp only [scanAllExcalidrawFiles]
  exact scanFold_skipped env v (scanFiles v) ⟨0, 0, 0, 0⟩ _

/-- Two indexer states with equal fields are equal. -/
theorem IndexerState.ext_of (a b : IndexerState) (h1 : a.frameIndex = b.frameIndex)
    (h2 : a.frameCache = b.frameCache) (h3 : a.isInitialized = b.isInitialized) :
    a = b := by
  cases a; cases b; simp_all

/-- Membership in the scan's candidate list yields the validity facts the
filter checked. -/
theorem mem_scanFiles_valid {v : Vault} {f : TFile} (hf : f ∈ scanFiles v) :
    f.path ≠ "" ∧ f.basename ≠ "" := by
  have hval : isValidExcalidrawFile f = true := List.of_mem_filter hf
  simp only [isValidExcalidrawFile, Bool.and_eq_true, bne_iff_ne, ne_eq] at hval
  exact ⟨hval.1.1, hval.2⟩

/-- A scan pass over documents that all hit the cache: every document is
counted as a hit, the cache is untouched, and the index receives exactly the
replay of the cached publishes. -/
theorem scanFold_all_hits (env : JsEnv) (v : Vault) :
    ∀ (fs : List TFile) (r : ScanReport) (st : IndexerState),
    (∀ f ∈ fs, f.path ≠ "" ∧ f.basename ≠ "" ∧
      ∃ ce, lookupA st.frameCache f.path = some ce ∧ ce.lastModified = f.mtime) →
    List.foldl (scanStep env v) (r, st) fs =
      ({ r with processedFiles := r.processedFiles + fs.length,
                cacheHits := r.cacheHits + fs.length },
       { st with frameIndex := pubAll st.frameCache fs st.frameIndex }) := by
  intro fs
  induction fs with
  | nil =>
    intro r st _
    simp [pubAll]
  | cons f rest ih =>
    intro r st h
    obtain ⟨hp, hb, ce, hce, hm⟩ := h f (List.mem_cons_self f rest)
    have hstep := extract_hit env v f st hp hb ce hce hm
    have hcf : cachedFrames st.frameCache f = ce.frames := by
      simp [cachedFrames, hce]
    have hstep2 : scanStep env v (r, st) f =
        ({ r with processedFiles := r.processedFiles + 1, cacheHits := r.cacheHits + 1 },
         { st with frameIndex := publishFrames st.frameIndex f.basename ce.frames }) := by
      simp [scanStep, hstep]
    have hrest : ∀ g ∈ rest, g.path ≠ "" ∧ g.basename ≠ "" ∧
        ∃ ce2, lookupA ({ st with
            frameIndex := publishFrames st.frameIndex f.basename ce.frames } :
          IndexerState).frameCache g.path = some ce2 ∧ ce2.lastModified = g.mtime :=
      fun g hg => h g (List.mem_cons_of_mem f hg)
    calc List.foldl (scanStep env v) (r, st) (f :: rest)
        = List.foldl (scanStep env v)
            ({ r with processedFiles := r.processedFiles + 1, cacheHits := r.cacheHits + 1 },
             { st with frameIndex := publishFrames st.frameIndex f.basename ce.frames })
            rest := by
          rw [List.foldl_cons, hstep2]
      _ = _ := by
          rw [ih _ _ hrest]
          simp [pubAll, hcf, Nat.add_assoc, Nat.add_comm, Nat.add_left_comm]

/-- A scan pass over valid, readable documents with pairwise-distinct paths:
afterwards every document has a cache entry stamped with its current mtime,
the final index is the replay of the final cache's publishes, and entries at
paths outside the scan are untouched. -/
theorem scanFold_populates (env : JsEnv) (v : Vault) :
    ∀ (fs : List TFile) (r : ScanReport) (st : IndexerState),
    (∀ f ∈ fs, f.path ≠ "" ∧ f.basename ≠ "" ∧ (v.content f.path).isSome) →
    (fs.map (fun f => f.path)).Nodup →
    (∀ f ∈ fs, ∃ ce,
      lookupA (List.foldl (scanStep env v) (r, st) fs).2.frameCache f.path = some ce
        ∧ ce.lastModified = f.mtime) ∧
    (List.foldl (scanStep env v) (r, st) fs).2.frameIndex
      = pubAll (List.foldl (scanStep env v) (r, st) fs).2.frameCache fs st.frameIndex ∧
    (∀ p, p ∉ fs.map (fun f => f.path) →
      lookupA (List.foldl (scanStep env v) (r, st) fs).2.frameCache p
        = lookupA st.frameCache p) := by
  intro fs
  induction fs with
  | nil =>
    intro r st _ _
    exact ⟨by simp, by simp [pubAll], fun p _ => rfl⟩
  | cons f rest ih =>
    intro r st hval hnd
    obtain ⟨hp, hb, hr⟩ := hval f (List.mem_cons_self f rest)
    obtain ⟨ce, hlook1, hm, hidx1, hpres1, _⟩ := extract_processed env v f st hp hb hr
    have hval' : ∀ g ∈ rest, g.path ≠ "" ∧ g.basename ≠ "" ∧ (v.content g.path).isSome :=
      fun g hg => hval g (List.mem_cons_of_mem f hg)
    have hnd' : (rest.map (fun g => g.path)).Nodup := by
      simp only [List.map_cons, List.nodup_cons] at hnd
      exact hnd.2
    have hfp : f.path ∉ rest.map (fun g => g.path) := by
      simp only [List.map_cons, List.nodup_cons] at hnd
      exact hnd.1
    obtain ⟨IH1, IH2, IH3⟩ :=
      ih (scanStep env v (r, st) f).1 (extractFramesFromFileWithCache env v f st).2
        hval' hnd'
    have hfold : List.foldl (scanStep env v) (r, st) (f :: rest)
        = List.foldl (scanStep env v)
            ((scanStep env v (r, st) f).1, (extractFramesFromFileWithCache env v f st).2)
            rest := rfl
    have hlookF : lookupA (List.foldl (scanStep env v)
          ((scanStep env v (r, st) f).1, (extractFramesFromFileWithCache env v f st).2)
          rest).2.frameCache f.path = some ce :=
      (IH3 f.path hfp).trans hlook1
    have hcfF : cachedFrames (List.foldl (scanStep env v)
          ((scanStep env v (r, st) f).1, (extractFramesFromFileWithCache env v f st).2)
          rest).2.frameCache f = ce.frames := by
      simp [cachedFrames, hlookF]
    refine ⟨?_, ?_, ?_⟩
    · intro g hg
      rcases List.mem_cons.mp hg with rfl | hg'
      · exact ⟨ce, hfold ▸ hlookF, hm⟩
      · exact hfold ▸ IH1 g hg'
    · rw [hfold, IH2, hidx1]
      simp [pubAll, hcfF]
    · intro p hpnot
      have hne : p ≠ f.path := by
        simp only [List.map_cons, List.mem_cons] at hpnot
        exact fun h' => hpnot (Or.inl h')
      have hnr : p ∉ rest.map (fun g => g.path) := by
        simp only [List.map_cons, List.mem_cons] at hpnot
        exact fun h' => hpnot (Or.inr h')
      rw [hfold]
      exact (IH3 p hnr).trans (hpres1 p hne)

/-- C2: scanning twice in a row over the same unchanged vault (each candidate
readable, paths pairwise distinct) leaves the second scan's resulting state
identical to the first's — same Index, same cache, still initialized — and
the second scan's report counts every candidate as a cache hit with zero
misses and zero skips. -/
theorem scanAll_idempotent (env : JsEnv) (v : Vault) (st : IndexerState)
    (hread : ∀ f ∈ scanFiles v, (v.content f.path).isSome)
    (hnodup : ((scanFiles v).map (fun f => f.path)).Nodup) :
    (scanAllExcalidrawFiles env v (scanAllExcalidrawFiles env v st).2).2
      = (scanAllExcalidrawFiles env v st).2 ∧
    (scanAllExcalidrawFiles env v (scanAllExcalidrawFiles env v st).2).1
      = ⟨(scanFiles v).length, (scanFiles v).length, 0, 0⟩ := by
  have hvalid : ∀ f ∈ scanFiles v,
      f.path ≠ "" ∧ f.basename ≠ "" ∧ (v.content f.path).isSome := by
    intro f hf
    obtain ⟨h1, h2⟩ := mem_scanFiles_valid hf
    exact ⟨h1, h2, hread f hf⟩
  obtain ⟨P1, P2, P3⟩ := scanFold_populates env v (scanFiles v) ⟨0, 0, 0, 0⟩
    { st with frameIndex := [] } hvalid hnodup
  have hhits : ∀ f ∈ scanFiles v, f.path ≠ "" ∧ f.basename ≠ "" ∧
      ∃ ce, lookupA ({ (scanAllExcalidrawFiles env v st).2 with frameIndex := [] } :
          IndexerState).frameCache f.path = some ce ∧ ce.lastModified = f.mtime := by
    intro f hf
    obtain ⟨h1, h2, _⟩ := hvalid f hf
    exact ⟨h1, h2, P1 f hf⟩
  have hall := scanFold_all_hits env v (scanFiles v) ⟨0, 0, 0, 0⟩
    { (scanAllExcalidrawFiles env v st).2 with frameIndex := [] } hhits
  have e2 : (scanAllExcalidrawFiles env v (scanAllExcalidrawFiles env v st).2).2
      = { (List.foldl (scanStep env v)
            (⟨0, 0, 0, 0⟩, { (scanAllExcalidrawFiles env v st).2 with frameIndex := [] })
            (scanFiles v)).2 with isInitialized := true } := rfl
  have e3 : (scanAllExcalidrawFiles env v (scanAllExcalidrawFiles env v st).2).1
      = (List.foldl (scanStep env v)
          (⟨0, 0, 0, 0⟩, { (scanAllExcalidrawFiles env v st).2 with frameIndex := [] })
          (scanFiles v)).1 := rfl
  rw [hall] at e2 e3
  refine ⟨IndexerState.ext_of _ _ ?_ ?_ ?_, ?_⟩
  · rw [e2]
    exact P2.symm
  · rw [e2]
  · rfl
  · rw [e3]
    simp

/-- C2 witness: on the concrete one-document vault, the second scan leaves
the state identical and reports one processed file, one hit, zero misses,
zero skips. -/
theorem scanAll_idempotent_witness :
    (scanAllExcalidrawFiles envAB vAB (scanAllExcalidrawFiles envAB vAB st0).2).2
      = (scanAllExcalidrawFiles envAB vAB st0).2 ∧
    (scanAllExcalidrawFiles envAB vAB (scanAllExcalidrawFiles envAB vAB st0).2).1
      = ⟨(scanFiles vAB).length, (scanFiles vAB).length, 0, 0⟩ :=
  scanAll_idempotent envAB vAB st0 (by decide) (by decide)

end Excalink
